import Mathlib

/-!
Shallow embedding of the intrinsic-dimension estimation pipeline from
`src/intrinsic_dim.ipynb`.

The notebook's computational core consists of four functions:

* `compute_persistent_score(embeddings)`: builds the pairwise Euclidean
  distance matrix (`scipy.spatial.distance_matrix`), computes a minimum
  spanning tree over it (`scipy.sparse.csgraph.minimum_spanning_tree`) and
  returns the sum of the tree's edge weights.
* `sample_and_score(embeddings, n, k=8, hat_n=40, J=7)`: computes
  `sizes = [(i - 1) * (n - hat_n) // k + hat_n for i in range(1, k + 1)]`,
  then for each size draws `J` subsets of that many distinct row indices via
  `np.random.choice(n, size, replace=False)` (global numpy RNG state, no seed
  parameter), scores each subset, and appends `np.median` of the `J` scores.
* `estimate_dimension(sizes, scores)`: fits an ordinary least-squares line to
  `np.log(sizes)` vs `np.log(scores)` using `sklearn.LinearRegression` and
  returns `1 / (1 - slope)`.
* `estimate_sequence_dimension(int_name, emb_dir, runs=5)`: loads the
  embedding matrix once, runs `sample_and_score` plus the inline log-log fit
  `runs` times collecting the slopes, and returns `1 / (1 - mean(slopes))`.

Modelling conventions:

* Numbers computed with floats in the source are idealised as `ℝ`; Python
  integers are `Int` (Python `//` is floor division, i.e. `Int.fdiv`).
* The numpy global RNG (`np.random`) is made explicit as a `Nat` state
  threaded through the functions, advanced by a deterministic step function.
  `np.random.choice(n, size, replace=False)` is modelled by its library
  contract: it raises `ValueError` when `size < 0` or `size > n` (before
  consuming randomness) and otherwise returns `size` distinct indices below
  `n` chosen from the generator state.
* Python exceptions are modelled with `Except`: a raised exception
  short-circuits the rest of the computation, as in the source.
* `scipy.sparse.csgraph.minimum_spanning_tree` is modelled by its library
  contract on the inputs exercised here (a complete graph of pairwise
  distances between pairwise-distinct points, or `M ≤ 1` points): the sum of
  its edge weights is the minimum total weight over all spanning trees of the
  complete graph on the `M` points; for `M ≤ 1` the tree is empty and the sum
  is `0` (scipy treats an `M ≤ 1` matrix as a graph with no edges and
  `.sum()` of the empty sparse result is `0.0`).
* `sklearn.linear_model.LinearRegression().fit` on one predictor is modelled
  by its library contract: it validates that inputs are finite floats
  (raising `ValueError` otherwise — `np.log` of a nonpositive float is
  `-inf`/`nan`, not an exception) and computes the ordinary least-squares
  slope.
-/

namespace IntrinsicDim

/-- Errors propagated from the external numeric libraries, modelling the
Python exceptions the notebook's calls can raise. -/
inductive NpErr : Type
  /-- `ValueError` raised by `np.random.choice(n, size, replace=False)` when
  `size` is negative or exceeds `n`. -/
  | choiceInvalid : NpErr
  /-- `ValueError` raised by `sklearn`'s input validation in
  `LinearRegression().fit` when an input is empty or contains a non-finite
  float (`inf`/`-inf`/`nan`). -/
  | fitNonFinite : NpErr
deriving DecidableEq

/-- Python line 108 of the notebook:
`sizes = [(i - 1) * (n - hat_n) // k + hat_n for i in range(1, k + 1)]`.
Python `//` on `int` is floor division, `Int.fdiv`. -/
def sizesList (n hat_n k : Int) : List Int :=
  (List.range' 1 k.toNat).map fun i : Nat =>
    (((i : Int) - 1) * (n - hat_n)).fdiv k + hat_n

/-- A deterministic step function standing for one advance of the global
numpy RNG state (`np.random`); a linear congruential generator. -/
def lcg (g : Nat) : Nat := (g * 1103515245 + 12345) % 4294967296

/-- Draw `t` distinct elements from the pool `rem`, advancing the RNG state
once per element; the index into the remaining pool is taken from the fresh
state. Models the selection of distinct indices performed inside
`np.random.choice(_, _, replace=False)`. -/
def drawLoop {N : Nat} : Nat → List (Fin N) → Nat → List (Fin N) × Nat
  | 0, _, g => ([], g)
  | _ + 1, [], g => ([], g)
  | t + 1, a :: rest, g =>
    let g' := lcg g
    let idx := g' % (a :: rest).length
    let v := (a :: rest).getD idx a
    let (vs, g'') := drawLoop t ((a :: rest).eraseIdx idx) g'
    (v :: vs, g'')

/-- Model of `np.random.choice(n, size, replace=False)` (legacy
`RandomState.choice`): raises `ValueError` when `size < 0` or `size > n`
(before consuming randomness), otherwise returns `size` distinct indices
below `n`, consuming RNG state. -/
def npChoice (N : Nat) (size : Int) (g : Nat) :
    Except NpErr (List (Fin N)) × Nat :=
  if size < 0 ∨ (N : Int) < size then (.error .choiceInvalid, g)
  else
    let r := drawLoop size.toNat (List.finRange N) g
    (.ok r.1, r.2)

/-- An embedding vector: a row of the `N × D` embedding matrix. -/
def Point (D : Nat) : Type := Fin D → ℝ

/-- Euclidean (L2) distance between two rows, as computed entrywise by
`scipy.spatial.distance_matrix(embeddings, embeddings)` (default `p=2`). -/
noncomputable def eDist {D : Nat} (a b : Point D) : ℝ :=
  Real.sqrt (∑ j, (a j - b j) ^ 2)

theorem eDist_comm {D : Nat} (a b : Point D) : eDist a b = eDist b a := by
  unfold eDist
  congr 1
  apply Finset.sum_congr rfl
  intro j _
  ring

/-- The Euclidean distance attached to an unordered pair of rows of the
matrix `x`; the edge weight of the complete graph whose vertices are the
rows. -/
noncomputable def distW {M D : Nat} (x : Fin M → Point D) : Sym2 (Fin M) → ℝ :=
  Sym2.lift ⟨fun i j => eDist (x i) (x j), fun i j => eDist_comm (x i) (x j)⟩

/-- A set `s` of unordered pairs of the `M` vertices is a spanning tree of
the complete graph on `Fin M`: no loops, the graph formed by the edges is
preconnected, and there are `M - 1` edges.  (For `M ≤ 1` this forces
`s = ∅`, the empty tree.) -/
def IsSpanTree (M : Nat) (s : Finset (Sym2 (Fin M))) : Prop :=
  (∀ e ∈ s, ¬ e.IsDiag) ∧
    (SimpleGraph.fromEdgeSet (↑s : Set (Sym2 (Fin M)))).Preconnected ∧
    s.card = M - 1

/-- All spanning trees of the complete graph on `Fin M`. -/
noncomputable def spanTrees (M : Nat) : Finset (Finset (Sym2 (Fin M))) :=
  @Finset.filter _ (IsSpanTree M) (Classical.decPred _) Finset.univ

/-- Total weight of a set of edges under the edge-weight function `w`. -/
noncomputable def treeWeight {M : Nat} (w : Sym2 (Fin M) → ℝ)
    (s : Finset (Sym2 (Fin M))) : ℝ :=
  ∑ e ∈ s, w e

/-- The total edge weight of a minimum spanning tree of the complete graph
on `Fin M` with edge weights `w`: the least value of `treeWeight w` over all
spanning trees.  This is the value of
`scipy.sparse.csgraph.minimum_spanning_tree(dist_matrix).sum()` under the
library's contract (see the module docstring for the `M ≤ 1` and
zero-distance caveats). -/
noncomputable def mstSum (M : Nat) (w : Sym2 (Fin M) → ℝ) : ℝ :=
  sInf (↑((spanTrees M).image (treeWeight w)) : Set ℝ)

/-- Model of the notebook's `compute_persistent_score(embeddings)` (cell 6):
Euclidean distance matrix, minimum spanning tree, sum of edge weights. The
function performs no input validation. -/
noncomputable def compute_persistent_score (M D : Nat) (x : Fin M → Point D) : ℝ :=
  mstSum M (distW x)

/-- Model of `np.median(l)` for a list of floats: sort, take the middle
element (odd length) or the mean of the two middle elements (even length).
For the empty list `np.median` emits a warning and produces `nan`, which no
claim relies on; the model returns the junk value `0` there. -/
noncomputable def npMedian (l : List ℝ) : ℝ :=
  let s := List.insertionSort (· ≤ ·) l
  if l.length % 2 = 1 then s.getD (l.length / 2) 0
  else (s.getD (l.length / 2 - 1) 0 + s.getD (l.length / 2) 0) / 2

/-- The persistent score of the sub-matrix `embeddings[idxs]`: the rows of
`x` selected by the drawn index list, in drawn order. -/
noncomputable def subScore {D N : Nat} (x : Fin N → Point D)
    (idxs : List (Fin N)) : ℝ :=
  compute_persistent_score idxs.length D fun i => x (idxs.get i)

/-- The inner list comprehension of `sample_and_score` (cell 7):
`[compute_persistent_score(embeddings[np.random.choice(n, size, replace=False)])
for _ in range(J)]`.  Each draw consumes RNG state; a `ValueError` raised by
`np.random.choice` aborts the whole computation. -/
noncomputable def drawJ {D N : Nat} (x : Fin N → Point D) (size : Int) :
    Nat → Nat → Except NpErr (List ℝ) × Nat
  | 0, g => (.ok [], g)
  | j + 1, g =>
    match npChoice N size g with
    | (.error e, g') => (.error e, g')
    | (.ok idxs, g') =>
      match drawJ x size j g' with
      | (.error e, g'') => (.error e, g'')
      | (.ok rest, g'') => (.ok (subScore x idxs :: rest), g'')

/-- The outer loop of `sample_and_score` (cell 7): for each sample size,
compute the `J` subset scores and append their median to `scores`. -/
noncomputable def loopSizes {D N : Nat} (x : Fin N → Point D) (J : Int) :
    List Int → Nat → Except NpErr (List ℝ) × Nat
  | [], g => (.ok [], g)
  | size :: rest, g =>
    match drawJ x size J.toNat g with
    | (.error e, g') => (.error e, g')
    | (.ok subs, g') =>
      match loopSizes x J rest g' with
      | (.error e, g'') => (.error e, g'')
      | (.ok scs, g'') => (.ok (npMedian subs :: scs), g'')

/-- Model of the notebook's `sample_and_score(embeddings, n, k=8, hat_n=40,
J=7)` (cell 7).  The function body performs no input validation: it computes
`sizes` from the closed formula and then enters the sampling loop directly;
the only exception that can arise is the `ValueError` from
`np.random.choice`.  The source's `n` argument is always passed the row
count of `embeddings` at both call sites, so the model identifies it with
`N`, the row-index domain of `x`.  The global numpy RNG state is the
explicit `g` argument, threaded to the returned state. -/
noncomputable def sample_and_score (D N : Nat) (x : Fin N → Point D)
    (k hat_n J : Int) (g : Nat) :
    Except NpErr (List Int × List ℝ) × Nat :=
  let sizes := sizesList (N : Int) hat_n k
  match loopSizes x J sizes g with
  | (.error e, g') => (.error e, g')
  | (.ok scores, g') => (.ok (sizes, scores), g')

/-- A float value as produced by `np.log`: either a finite real or one of
the IEEE non-finite values (`-inf` from `np.log 0`, `nan` from `np.log` of a
negative number).  `ℝ` idealises the finite floats; the non-finite cases are
kept symbolic because `sklearn`'s input validation branches on them. -/
inductive FVal : Type
  | fin (x : ℝ) : FVal
  | neginf : FVal
  | nan : FVal

/-- Whether a float value is finite. -/
def FVal.isFin : FVal → Bool
  | .fin _ => true
  | _ => false

/-- The real number carried by a finite float value (junk `0` otherwise). -/
noncomputable def FVal.val : FVal → ℝ
  | .fin x => x
  | _ => 0

/-- Model of `np.log` on a float: finite logarithm for positive input,
`-inf` at `0`, `nan` for negative input (numpy emits a `RuntimeWarning`, not
an exception, in the latter two cases). -/
noncomputable def npLog (x : ℝ) : FVal :=
  if 0 < x then .fin (Real.log x) else if x = 0 then .neginf else .nan

/-- Ordinary least-squares slope of `ys` against `xs` (one predictor), in
the centered form `Σ (x-x̄)(y-ȳ) / Σ (x-x̄)²`.  This is the slope
`LinearRegression().fit(xs, ys).coef_[0]` computes for finite inputs. -/
noncomputable def olsSlope (xs ys : List ℝ) : ℝ :=
  let n : ℝ := xs.length
  let xbar := xs.sum / n
  let ybar := ys.sum / n
  (((xs.zip ys).map fun p => (p.1 - xbar) * (p.2 - ybar)).sum) /
    ((xs.map fun x => (x - xbar) ^ 2).sum)

/-- Model of `LinearRegression().fit(X, y).coef_[0]` for a single predictor:
`sklearn` first validates the inputs, raising `ValueError` when they are
empty or contain a non-finite float, and otherwise computes the
ordinary-least-squares slope. -/
noncomputable def fitSlope (xs ys : List FVal) : Except NpErr ℝ :=
  if xs.length = 0 ∨ ¬ (xs.all FVal.isFin) ∨ ¬ (ys.all FVal.isFin) then
    .error .fitNonFinite
  else
    .ok (olsSlope (xs.map FVal.val) (ys.map FVal.val))

/-- Model of the notebook's `estimate_dimension(sizes, scores)` (cell 8):
`np.log` both lists, fit the regression, return `1 / (1 - slope)`.  There is
no guard on the slope: the final division is plain float arithmetic (a zero
denominator yields IEEE `inf` with a `RuntimeWarning`, not an exception; the
`ℝ` idealisation gives the junk value of division by zero there). -/
noncomputable def estimate_dimension (sizes scores : List ℝ) : Except NpErr ℝ :=
  match fitSlope (sizes.map npLog) (scores.map npLog) with
  | .error e => .error e
  | .ok slope => .ok (1 / (1 - slope))

/-- Model of `np.mean(l)` (junk value `0` for the empty list, standing for
numpy's `nan`). -/
noncomputable def npMean (l : List ℝ) : ℝ := l.sum / l.length

/-- One iteration of the loop body of `estimate_sequence_dimension`
(cell 9): call `sample_and_score(embeddings, n)` with its default parameters
`k=8, hat_n=40, J=7`, log-transform the returned `sizes` and `scores`, fit
the regression, and produce the slope. -/
noncomputable def runSlope (D N : Nat) (x : Fin N → Point D) (g : Nat) :
    Except NpErr ℝ × Nat :=
  match sample_and_score D N x 8 40 7 g with
  | (.error e, g') => (.error e, g')
  | (.ok (sizes, scores), g') =>
    (fitSlope ((sizes.map fun z => npLog (z : ℝ))) (scores.map npLog), g')

/-- The loop of `estimate_sequence_dimension` (cell 9), with the mutable
python list `slopes` made explicit as the accumulator `acc`:
`for _ in range(runs): ...; slopes.append(reg.coef_[0])`. -/
noncomputable def aggLoop (D N : Nat) (x : Fin N → Point D) :
    Nat → Nat → List ℝ → Except NpErr (List ℝ) × Nat
  | 0, g, acc => (.ok acc, g)
  | r + 1, g, acc =>
    match runSlope D N x g with
    | (.error e, g') => (.error e, g')
    | (.ok s, g') => aggLoop D N x r g' (acc ++ [s])

/-- Model of the notebook's `estimate_sequence_dimension(int_name, emb_dir,
runs=5)` (cell 9).  `get_embeddings` is called exactly once, before the
loop; its result is the externally supplied matrix `x` (the embedding loader
is an external collaborator).  The loop collects one regression slope per
run, then `kappa_F = np.mean(slopes)` and the result is `1 / (1 - kappa_F)`,
with the transform applied a single time after the loop. -/
noncomputable def estimate_sequence_dimension (D N : Nat) (x : Fin N → Point D)
    (runs : Nat) (g : Nat) : Except NpErr ℝ × Nat :=
  match aggLoop D N x runs g [] with
  | (.error e, g') => (.error e, g')
  | (.ok slopes, g') => (.ok (1 / (1 - npMean slopes)), g')

/-- Modelled from the spec, §4.4 Multi-run Aggregator wording: "repeat R
times: ... run the Subsampler (§4.2) to get a fresh `sizes`/`scores` pair,
fit the log-log regression (§4.3 without the final transform) to obtain a
slope, collect all R slopes".  The collected slopes, in run order. -/
noncomputable def collectSlopesSpec (D N : Nat) (x : Fin N → Point D) :
    Nat → Nat → Except NpErr (List ℝ) × Nat
  | 0, g => (.ok [], g)
  | r + 1, g =>
    match runSlope D N x g with
    | (.error e, g') => (.error e, g')
    | (.ok s, g') =>
      match collectSlopesSpec D N x r g' with
      | (.error e, g'') => (.error e, g'')
      | (.ok rest, g'') => (.ok (s :: rest), g'')

/-- Modelled from the spec, §4.4 Multi-run Aggregator wording: collect the R
slopes, "average them, and apply `1 / (1 - mean_slope)` once at the end". -/
noncomputable def estimate_sequence_dimension_spec (D N : Nat)
    (x : Fin N → Point D) (runs : Nat) (g : Nat) : Except NpErr ℝ × Nat :=
  match collectSlopesSpec D N x runs g with
  | (.error e, g') => (.error e, g')
  | (.ok slopes, g') => (.ok (1 / (1 - npMean slopes)), g')

/-! Helper lemmas about the size formula. -/

theorem sizesList_length (n hat_n k : Int) : (sizesList n hat_n k).length = k.toNat := by
  unfold sizesList
  rw [List.length_map, List.length_range']

theorem sizesList_getD (n hat_n k : Int) (i : Nat) (h : i < k.toNat) :
    (sizesList n hat_n k).getD i 0 = ((i : Int) * (n - hat_n)).fdiv k + hat_n := by
  unfold sizesList
  rw [List.getD_eq_getElem?_getD, List.getElem?_map, List.getElem?_range' _ _ h]
  have h2 : ((1 + 1 * i : Nat) : Int) - 1 = (i : Int) := by push_cast; ring
  show ((((1 + 1 * i : Nat) : Int) - 1) * (n - hat_n)).fdiv k + hat_n
      = ((i : Int) * (n - hat_n)).fdiv k + hat_n
  rw [h2]

theorem fdiv_term_mono {d k : Int} (hk : 0 < k) (hd : 0 ≤ d) {a b : Int}
    (hab : a ≤ b) : (a * d).fdiv k ≤ (b * d).fdiv k := by
  rw [Int.fdiv_eq_ediv _ hk.le, Int.fdiv_eq_ediv _ hk.le]
  exact Int.ediv_le_ediv hk (mul_le_mul_of_nonneg_right hab hd)

theorem fdiv_term_nonneg {d k : Int} (hk : 0 < k) (hd : 0 ≤ d) {i : Int}
    (hi : 0 ≤ i) : 0 ≤ (i * d).fdiv k := by
  rw [Int.fdiv_eq_ediv _ hk.le]
  exact Int.ediv_nonneg (mul_nonneg hi hd) hk.le

theorem fdiv_term_le {d k : Int} (hk : 0 < k) (hd : 0 ≤ d) {i : Int}
    (hi : i ≤ k) : (i * d).fdiv k ≤ d := by
  calc (i * d).fdiv k ≤ (k * d).fdiv k := fdiv_term_mono hk hd hi
    _ = d := by rw [Int.fdiv_eq_ediv _ hk.le, Int.mul_ediv_cancel_left d hk.ne']

theorem fdiv_term_strict {d k : Int} (hk : 0 < k) (hdk : k ≤ d) (i : Int) :
    (i * d).fdiv k + 1 ≤ ((i + 1) * d).fdiv k := by
  rw [Int.fdiv_eq_ediv _ hk.le, Int.fdiv_eq_ediv _ hk.le]
  have h1 : i * d + 1 * k ≤ (i + 1) * d := by nlinarith
  calc i * d / k + 1 = (i * d + 1 * k) / k := by
        rw [Int.add_mul_ediv_right _ _ hk.ne']
    _ ≤ (i + 1) * d / k := Int.ediv_le_ediv hk h1

theorem sizesList_mem_iff {n hat_n k : Int} {s : Int} :
    s ∈ sizesList n hat_n k ↔
      ∃ i : Nat, i < k.toNat ∧ s = ((i : Int) * (n - hat_n)).fdiv k + hat_n := by
  unfold sizesList
  simp only [List.mem_map, List.mem_range']
  constructor
  · rintro ⟨m, ⟨i, hi, rfl⟩, rfl⟩
    refine ⟨i, hi, ?_⟩
    have : ((1 + 1 * i : Nat) : Int) - 1 = (i : Int) := by push_cast; ring
    rw [this]
  · rintro ⟨i, hi, rfl⟩
    refine ⟨1 + 1 * i, ⟨i, hi, rfl⟩, ?_⟩
    have : ((1 + 1 * i : Nat) : Int) - 1 = (i : Int) := by push_cast; ring
    rw [this]

theorem npChoice_isOk {N : Nat} {s : Int} (h0 : 0 ≤ s) (hN : s ≤ (N : Int))
    (g : Nat) : ((npChoice N s g).1).isOk = true := by
  unfold npChoice
  rw [if_neg (by push_neg; exact ⟨h0, hN⟩)]
  rfl

theorem sample_and_score_ok_sizes {D N : Nat} {x : Fin N → Point D}
    {k hat_n J : Int} {g g' : Nat} {p : List Int × List ℝ}
    (h : sample_and_score D N x k hat_n J g = (.ok p, g')) :
    p.1 = sizesList (N : Int) hat_n k := by
  unfold sample_and_score at h
  rcases hr : loopSizes x J (sizesList (N : Int) hat_n k) g with ⟨r, g2⟩
  cases r with
  | error e =>
    simp only [hr, Prod.mk.injEq] at h
    exact absurd h.1 (by simp)
  | ok scores =>
    simp only [hr, Prod.mk.injEq, Except.ok.injEq] at h
    rw [← h.1]

/-- C1: for every embedding count `N` and parameters `k ≥ 1` and `hat_n`,
`sample_and_score` generates exactly `k` sample sizes given by the floor
formula `size_i = ⌊(i-1)·(N - hat_n)/k⌋ + hat_n` for `i = 1..k` (Python `//`
is floor division), and on success it returns exactly that list; for
`N = 1022, k = 8, hat_n = 40` the first size is `40` and the last (`i = 8`)
is `899`. -/
theorem c1_sizes_formula :
    (∀ (N hat_n k : Int), 1 ≤ k →
      (sizesList N hat_n k).length = k.toNat ∧
      ∀ i : Nat, 1 ≤ i → i ≤ k.toNat →
        (sizesList N hat_n k).getD (i - 1) 0
          = (((i : Int) - 1) * (N - hat_n)).fdiv k + hat_n) ∧
    (∀ (D N : Nat) (x : Fin N → Point D) (k hat_n J : Int) (g g' : Nat)
      (p : List Int × List ℝ),
      sample_and_score D N x k hat_n J g = (.ok p, g') →
      p.1 = sizesList (N : Int) hat_n k) ∧
    (sizesList 1022 40 8).getD 0 0 = 40 ∧
    (sizesList 1022 40 8).getD 7 0 = 899 := by
  refine ⟨?_, ?_, by decide, by decide⟩
  · intro N hat_n k _
    refine ⟨sizesList_length N hat_n k, ?_⟩
    intro i h1 h2
    have hlt : i - 1 < k.toNat := by omega
    rw [sizesList_getD N hat_n k (i - 1) hlt]
    have h3 : ((i - 1 : Nat) : Int) = (i : Int) - 1 := by omega
    rw [h3]
  · exact fun D N x k hat_n J g g' p h => sample_and_score_ok_sizes h

theorem c1_sizes_formula_witness :
    ((1 : Int) ≤ 8 ∧ (1 : Nat) ≤ 8 ∧ (8 : Nat) ≤ (8 : Int).toNat) ∧
    (sizesList 1022 40 8).getD (8 - 1) 0
      = (((8 : Int) - 1) * (1022 - 40)).fdiv 8 + 40 :=
  ⟨⟨by decide, by decide, by decide⟩,
    (c1_sizes_formula.1 1022 40 8 (by decide)).2 8 (by decide) (by decide)⟩

/-- C3 as stated is false: at `N = 2, hat_n = 2, k = 2` (satisfying the
claim's hypotheses `N ≥ hat_n ≥ 2` and `k ≥ 1`) the generated list is
`[2, 2]`, which is not strictly increasing. -/
theorem c3_counterexample :
    sizesList 2 2 2 = [2, 2] ∧
    ¬ ((sizesList 2 2 2).getD 0 0 < (sizesList 2 2 2).getD 1 0) := by decide

/-- C3 amended: for `N ≥ hat_n ≥ 2` and `k ≥ 1` the size list starts at
`hat_n`, is non-decreasing (strictly increasing whenever `N - hat_n ≥ k`),
and every size is bounded by `N`. -/
theorem c3_sizes_monotone (N hat_n k : Int) (_h2 : 2 ≤ hat_n) (hN : hat_n ≤ N)
    (hk : 1 ≤ k) :
    (sizesList N hat_n k).getD 0 0 = hat_n ∧
    (∀ i j : Nat, i ≤ j → j < k.toNat →
      (sizesList N hat_n k).getD i 0 ≤ (sizesList N hat_n k).getD j 0) ∧
    (∀ s ∈ sizesList N hat_n k, s ≤ N) ∧
    (k ≤ N - hat_n → ∀ i j : Nat, i < j → j < k.toNat →
      (sizesList N hat_n k).getD i 0 < (sizesList N hat_n k).getD j 0) := by
  have hk0 : 0 < k := by omega
  have hd : 0 ≤ N - hat_n := by omega
  refine ⟨?_, ?_, ?_, ?_⟩
  · rw [sizesList_getD N hat_n k 0 (by omega)]
    simp [Int.zero_fdiv]
  · intro i j hij hj
    rw [sizesList_getD N hat_n k i (by omega), sizesList_getD N hat_n k j hj]
    have : ((i : Int)) ≤ (j : Int) := by omega
    exact add_le_add_right (fdiv_term_mono hk0 hd this) hat_n
  · intro s hs
    rw [sizesList_mem_iff] at hs
    obtain ⟨i, hi, rfl⟩ := hs
    have hik : (i : Int) ≤ k := by omega
    have := fdiv_term_le hk0 hd hik
    omega
  · intro hdk i j hij hj
    rw [sizesList_getD N hat_n k i (by omega), sizesList_getD N hat_n k j hj]
    have hstep := fdiv_term_strict hk0 hdk (i : Int)
    have hmono := fdiv_term_mono hk0 hd (show (i : Int) + 1 ≤ (j : Int) by omega)
    omega

theorem c3_sizes_monotone_witness :
    ((2 : Int) ≤ 40 ∧ (40 : Int) ≤ 1022 ∧ (1 : Int) ≤ 8) ∧
    (sizesList 1022 40 8).getD 0 0 = 40 :=
  ⟨⟨by decide, by decide, by decide⟩,
    (c3_sizes_monotone 1022 40 8 (by decide) (by decide) (by decide)).1⟩

/-- C10: for every `N`, every `k ≥ 1` and every `hat_n` with
`0 ≤ hat_n ≤ N`, each generated size lies in `[hat_n, N]` and the sequence
is non-decreasing; consequently `np.random.choice(N, size, replace=False)`
succeeds for every generated size and every RNG state — its failure branch
(requesting more distinct indices than `N`, or a negative count) is
unreachable. -/
theorem c10_sizes_safe (N : Nat) (hat_n k : Int) (h0 : 0 ≤ hat_n)
    (hN : hat_n ≤ (N : Int)) (hk : 1 ≤ k) :
    (∀ s ∈ sizesList (N : Int) hat_n k, hat_n ≤ s ∧ s ≤ (N : Int)) ∧
    (∀ i j : Nat, i ≤ j → j < k.toNat →
      (sizesList (N : Int) hat_n k).getD i 0
        ≤ (sizesList (N : Int) hat_n k).getD j 0) ∧
    (∀ s ∈ sizesList (N : Int) hat_n k, ∀ g : Nat,
      ((npChoice N s g).1).isOk = true) := by
  have hk0 : 0 < k := by omega
  have hd : 0 ≤ (N : Int) - hat_n := by omega
  have hbound : ∀ s ∈ sizesList (N : Int) hat_n k, hat_n ≤ s ∧ s ≤ (N : Int) := by
    intro s hs
    rw [sizesList_mem_iff] at hs
    obtain ⟨i, hi, rfl⟩ := hs
    have hik : (i : Int) ≤ k := by omega
    have h1 := fdiv_term_le hk0 hd hik
    have h2 := fdiv_term_nonneg hk0 hd (show (0 : Int) ≤ (i : Int) by omega)
    omega
  refine ⟨hbound, ?_, ?_⟩
  · intro i j hij hj
    rw [sizesList_getD _ hat_n k i (by omega), sizesList_getD _ hat_n k j hj]
    exact add_le_add_right (fdiv_term_mono hk0 hd (by omega : (i : Int) ≤ j)) hat_n
  · intro s hs g
    obtain ⟨hs1, hs2⟩ := hbound s hs
    exact npChoice_isOk (le_trans h0 hs1) hs2 g

theorem c10_sizes_safe_witness :
    ((0 : Int) ≤ 40 ∧ (40 : Int) ≤ (1022 : Nat) ∧ (1 : Int) ≤ 8 ∧
      (40 : Int) ∈ sizesList (1022 : Nat) 40 8) ∧
    ((npChoice 1022 40 0).1).isOk = true :=
  ⟨⟨by decide, by decide, by decide, by decide⟩,
    (c10_sizes_safe 1022 40 8 (by decide) (by decide) (by decide)).2.2 40
      (by decide) 0⟩

/-! Success and failure of the sampling loop. -/

theorem npChoice_error {N : Nat} {s : Int} (h : (N : Int) < s) (g : Nat) :
    npChoice N s g = (.error .choiceInvalid, g) := by
  unfold npChoice
  rw [if_pos (Or.inr h)]

theorem drawJ_isOk {D N : Nat} (x : Fin N → Point D) {size : Int}
    (h0 : 0 ≤ size) (hN : size ≤ (N : Int)) :
    ∀ (j g : Nat), ((drawJ x size j g).1).isOk = true
  | 0, _ => rfl
  | j + 1, g => by
    unfold drawJ
    have hc := npChoice_isOk h0 hN g
    rcases hc2 : npChoice N size g with ⟨r, g2⟩
    cases r with
    | error e => rw [hc2] at hc; simp [Except.isOk, Except.toBool] at hc
    | ok idxs =>
      rcases hd : drawJ x size j g2 with ⟨r2, g3⟩
      cases r2 with
      | error e =>
        have h3 := drawJ_isOk x h0 hN j g2
        rw [hd] at h3
        simp [Except.isOk, Except.toBool] at h3
      | ok rest =>
        simp only [hc2, hd]
        rfl

theorem drawJ_error {D N : Nat} (x : Fin N → Point D) {size : Int}
    (hN : (N : Int) < size) {j : Nat} (hj : 1 ≤ j) (g : Nat) :
    drawJ x size j g = (.error .choiceInvalid, g) := by
  obtain ⟨m, rfl⟩ : ∃ m, j = m + 1 := ⟨j - 1, by omega⟩
  unfold drawJ
  rw [npChoice_error hN g]

theorem loopSizes_isOk {D N : Nat} (x : Fin N → Point D) (J : Int) :
    ∀ (sizes : List Int), (∀ s ∈ sizes, 0 ≤ s ∧ s ≤ (N : Int)) →
      ∀ g : Nat, ((loopSizes x J sizes g).1).isOk = true
  | [], _, _ => rfl
  | size :: rest, hb, g => by
    unfold loopSizes
    have hs := hb size (List.mem_cons_self _ _)
    have hdj := drawJ_isOk x hs.1 hs.2 J.toNat g
    rcases hd : drawJ x size J.toNat g with ⟨r, g2⟩
    cases r with
    | error e => rw [hd] at hdj; simp [Except.isOk, Except.toBool] at hdj
    | ok subs =>
      have hrest := loopSizes_isOk x J rest
        (fun s hsm => hb s (List.mem_cons_of_mem _ hsm)) g2
      rcases hl : loopSizes x J rest g2 with ⟨r2, g3⟩
      cases r2 with
      | error e => rw [hl] at hrest; simp [Except.isOk, Except.toBool] at hrest
      | ok scs =>
        simp only [hd, hl]
        rfl

theorem sizesList_cons {n hat_n k : Int} (hk : 1 ≤ k) :
    ∃ rest, sizesList n hat_n k = hat_n :: rest := by
  obtain ⟨m, hm⟩ : ∃ m, k.toNat = m + 1 := ⟨k.toNat - 1, by omega⟩
  refine ⟨(List.range' 2 m).map fun i : Nat =>
    (((i : Int) - 1) * (n - hat_n)).fdiv k + hat_n, ?_⟩
  unfold sizesList
  rw [hm, List.range'_succ, List.map_cons]
  norm_num [Int.zero_fdiv]

theorem sizesList_bounds {n hat_n k s : Int} (h0 : 0 ≤ hat_n)
    (hn : hat_n ≤ n) (hs : s ∈ sizesList n hat_n k) : 0 ≤ s ∧ s ≤ n := by
  rw [sizesList_mem_iff] at hs
  obtain ⟨i, hi, rfl⟩ := hs
  have hk0 : 0 < k := by omega
  have hd : 0 ≤ n - hat_n := by omega
  have h1 := fdiv_term_le hk0 hd (show (i : Int) ≤ k by omega)
  have h2 := fdiv_term_nonneg hk0 hd (show (0 : Int) ≤ (i : Int) by omega)
  omega

theorem sample_and_score_isOk {D N : Nat} (x : Fin N → Point D)
    {k hat_n : Int} (J : Int) (h0 : 0 ≤ hat_n) (hN : hat_n ≤ (N : Int))
    (g : Nat) : ((sample_and_score D N x k hat_n J g).1).isOk = true := by
  unfold sample_and_score
  have hls := loopSizes_isOk x J (sizesList (N : Int) hat_n k)
    (fun s hs => sizesList_bounds h0 hN hs) g
  rcases hl : loopSizes x J (sizesList (N : Int) hat_n k) g with ⟨r, g2⟩
  cases r with
  | error e => rw [hl] at hls; simp [Except.isOk, Except.toBool] at hls
  | ok scores =>
    simp only [hl]
    rfl

theorem sample_and_score_error {D N : Nat} (x : Fin N → Point D)
    {k hat_n J : Int} (hN : (N : Int) < hat_n) (hk : 1 ≤ k) (hJ : 1 ≤ J)
    (g : Nat) :
    sample_and_score D N x k hat_n J g = (.error .choiceInvalid, g) := by
  unfold sample_and_score
  obtain ⟨rest, hrest⟩ := @sizesList_cons (N : Int) hat_n k hk
  rw [hrest]
  simp only [loopSizes]
  rw [drawJ_error x hN (by omega : 1 ≤ J.toNat) g]

/-- C4 amended: `sample_and_score` performs no entry validation.  When
`hat_n > N` (with `k ≥ 1`, `J ≥ 1`) a `ValueError` propagates out of
`np.random.choice` during the first draw — after the size list has been
computed, not at entry; and calls with degenerate parameters that the claim
says must be rejected (`hat_n < 2`, in the range `0 ≤ hat_n ≤ N`) complete
without any error.  In particular `hat_n = 40` with `N = 20` raises the
library error. -/
theorem c4_no_entry_validation (D N : Nat) (x : Fin N → Point D)
    (k hat_n J : Int) (g : Nat) :
    ((N : Int) < hat_n → 1 ≤ k → 1 ≤ J →
      sample_and_score D N x k hat_n J g = (.error .choiceInvalid, g)) ∧
    (0 ≤ hat_n → hat_n ≤ (N : Int) →
      ((sample_and_score D N x k hat_n J g).1).isOk = true) :=
  ⟨fun hN hk hJ => sample_and_score_error x hN hk hJ g,
    fun h0 hN => sample_and_score_isOk x J h0 hN g⟩

theorem c4_no_entry_validation_witness :
    (((20 : Nat) : Int) < 40 ∧ (1 : Int) ≤ 8 ∧ (1 : Int) ≤ 7) ∧
    sample_and_score 1 20 (fun _ _ => 0) 8 40 7 0
      = (.error .choiceInvalid, 0) :=
  ⟨⟨by decide, by decide, by decide⟩,
    (c4_no_entry_validation 1 20 (fun _ _ => 0) 8 40 7 0).1 (by decide)
      (by decide) (by decide)⟩

/-- C4 as stated is false: the Subsampler does not reject `hat_n < 2` — the
call with `hat_n = 1` (and `N = 5`, `k = 1`, `J = 1`) generates the size
list `[1]` and completes without raising any error. -/
theorem c4_counterexample :
    sizesList 5 1 1 = [1] ∧
    ((sample_and_score 1 5 (fun _ _ => 0) 1 1 1 0).1).isOk = true :=
  ⟨by decide, sample_and_score_isOk (fun _ _ => 0) 1 (by decide) (by decide) 0⟩

/-! Spanning-tree facts: membership, existence, and invariance of the
minimum total weight under relabelling of the vertices. -/

theorem mem_spanTrees {M : Nat} {s : Finset (Sym2 (Fin M))} :
    s ∈ spanTrees M ↔ IsSpanTree M s := by
  unfold spanTrees
  rw [@Finset.mem_filter _ _ (Classical.decPred _)]
  simp only [Finset.mem_univ, true_and]

theorem spanTrees_nonempty (M : Nat) : (spanTrees M).Nonempty := by
  cases M with
  | zero =>
    refine ⟨∅, mem_spanTrees.mpr ⟨?_, ?_, rfl⟩⟩
    · intro e he
      exact absurd he (Finset.not_mem_empty e)
    · intro u
      exact u.elim0
  | succ m =>
    refine ⟨(Finset.univ.erase (0 : Fin (m + 1))).image fun j => s(0, j),
      mem_spanTrees.mpr ⟨?_, ?_, ?_⟩⟩
    · intro e he
      rw [Finset.mem_image] at he
      obtain ⟨j, hj, rfl⟩ := he
      rw [Sym2.mk_isDiag_iff]
      exact fun h0 => (Finset.mem_erase.mp hj).1 h0.symm
    · have hadj : ∀ a : Fin (m + 1), a ≠ 0 →
          (SimpleGraph.fromEdgeSet
            (↑((Finset.univ.erase (0 : Fin (m + 1))).image fun j => s(0, j)))).Adj 0 a := by
        intro a ha
        rw [SimpleGraph.fromEdgeSet_adj]
        refine ⟨?_, fun h => ha h.symm⟩
        rw [Finset.mem_coe, Finset.mem_image]
        exact ⟨a, Finset.mem_erase.mpr ⟨ha, Finset.mem_univ a⟩, rfl⟩
      intro a b
      by_cases hab : a = b
      · exact hab ▸ SimpleGraph.Reachable.refl a
      by_cases ha : a = 0
      · subst ha
        exact (hadj b (fun h => hab h.symm)).reachable
      by_cases hb : b = 0
      · subst hb
        exact (hadj a ha).reachable.symm
      · exact ((hadj a ha).reachable.symm).trans (hadj b hb).reachable
    · have hinj : Function.Injective fun j : Fin (m + 1) => s((0 : Fin (m + 1)), j) := by
        intro a b hab
        rcases Sym2.eq_iff.mp hab with ⟨_, h⟩ | ⟨h0, h1⟩
        · exact h
        · rw [h1, ← h0]
      rw [Finset.card_image_of_injective _ hinj, Finset.card_erase_of_mem
        (Finset.mem_univ _), Finset.card_univ, Fintype.card_fin]

theorem isSpanTree_image {M : Nat} (σ : Equiv.Perm (Fin M))
    {s : Finset (Sym2 (Fin M))} (h : IsSpanTree M s) :
    IsSpanTree M (s.image (Sym2.map σ)) := by
  obtain ⟨hl, hp, hc⟩ := h
  refine ⟨?_, ?_, ?_⟩
  · intro e he
    rw [Finset.mem_image] at he
    obtain ⟨e', he', rfl⟩ := he
    rw [Sym2.isDiag_map σ.injective]
    exact hl e' he'
  · have key : ∀ a b, (SimpleGraph.fromEdgeSet (↑s : Set (Sym2 (Fin M)))).Adj a b →
        (SimpleGraph.fromEdgeSet
          (↑(s.image (Sym2.map σ)) : Set (Sym2 (Fin M)))).Adj (σ a) (σ b) := by
      intro a b hab
      rw [SimpleGraph.fromEdgeSet_adj] at hab ⊢
      refine ⟨?_, fun heq => hab.2 (σ.injective heq)⟩
      rw [Finset.mem_coe, Finset.mem_image]
      exact ⟨s(a, b), Finset.mem_coe.mp hab.1, Sym2.map_pair_eq σ a b⟩
    refine SimpleGraph.Preconnected.map ⟨⇑σ, fun hab => key _ _ hab⟩
      (fun v => ⟨σ.symm v, ?_⟩) hp
    exact σ.apply_symm_apply v
  · rw [Finset.card_image_of_injective s (Sym2.map.injective σ.injective)]
    exact hc

theorem treeWeight_image {M : Nat} (σ : Equiv.Perm (Fin M))
    (w : Sym2 (Fin M) → ℝ) (s : Finset (Sym2 (Fin M))) :
    treeWeight w (s.image (Sym2.map σ)) = treeWeight (fun e => w (Sym2.map σ e)) s := by
  unfold treeWeight
  exact Finset.sum_image fun a _ b _ hab => Sym2.map.injective σ.injective hab

theorem map_map_symm {M : Nat} (σ : Equiv.Perm (Fin M)) (e : Sym2 (Fin M)) :
    Sym2.map σ (Sym2.map σ.symm e) = e := by
  induction e using Sym2.ind with
  | _ a b => rw [Sym2.map_pair_eq, Sym2.map_pair_eq,
      Equiv.apply_symm_apply, Equiv.apply_symm_apply]

theorem mstSum_map {M : Nat} (σ : Equiv.Perm (Fin M)) (w : Sym2 (Fin M) → ℝ) :
    mstSum M (fun e => w (Sym2.map σ e)) = mstSum M w := by
  unfold mstSum
  have himg : (spanTrees M).image (treeWeight fun e => w (Sym2.map σ e))
      = (spanTrees M).image (treeWeight w) := by
    apply Finset.ext
    intro r
    simp only [Finset.mem_image]
    constructor
    · rintro ⟨s, hs, rfl⟩
      exact ⟨s.image (Sym2.map σ),
        mem_spanTrees.mpr (isSpanTree_image σ (mem_spanTrees.mp hs)),
        treeWeight_image σ w s⟩
    · rintro ⟨s, hs, rfl⟩
      refine ⟨s.image (Sym2.map σ.symm),
        mem_spanTrees.mpr (isSpanTree_image σ.symm (mem_spanTrees.mp hs)), ?_⟩
      rw [treeWeight_image σ.symm (fun e => w (Sym2.map σ e)) s]
      unfold treeWeight
      exact Finset.sum_congr rfl fun e _ => by simp only [map_map_symm σ]
  rw [himg]

/-- C8: the persistent score (total MST edge weight) is invariant under any
permutation of the rows of the input matrix, for `M ≥ 2` pairwise-distinct
points. -/
theorem c8_permutation_invariant (M D : Nat) (_hM : 2 ≤ M)
    (x : Fin M → Point D) (_hinj : Function.Injective x)
    (σ : Equiv.Perm (Fin M)) :
    compute_persistent_score M D (fun i => x (σ i))
      = compute_persistent_score M D x := by
  unfold compute_persistent_score
  have hd : distW (fun i => x (σ i)) = fun e => distW x (Sym2.map σ e) := by
    funext e
    induction e using Sym2.ind with
    | _ a b => rw [Sym2.map_pair_eq]; rfl
  rw [hd, mstSum_map σ (distW x)]

theorem c8_permutation_invariant_witness :
    (2 ≤ 2 ∧ Function.Injective fun i : Fin 2 => fun _ : Fin 1 => (i.val : ℝ)) ∧
    compute_persistent_score 2 1
        (fun i => (fun i : Fin 2 => fun _ : Fin 1 => (i.val : ℝ)) (Equiv.swap 0 1 i))
      = compute_persistent_score 2 1 (fun i : Fin 2 => fun _ : Fin 1 => (i.val : ℝ)) := by
  have hinj : Function.Injective fun i : Fin 2 => fun _ : Fin 1 => (i.val : ℝ) :=
    fun a b h => Fin.val_injective (Nat.cast_injective (congrFun h 0))
  exact ⟨⟨le_refl 2, hinj⟩,
    c8_permutation_invariant 2 1 (le_refl 2) _ hinj (Equiv.swap 0 1)⟩

/-! Concrete evaluation of the MST score at `M = 0` and `M = 2`. -/

theorem mstSum_zero (w : Sym2 (Fin 0) → ℝ) : mstSum 0 w = 0 := by
  have h1 : spanTrees 0 = {∅} := by
    apply Finset.ext
    intro s
    rw [mem_spanTrees, Finset.mem_singleton]
    constructor
    · intro _
      exact Finset.eq_empty_of_isEmpty s
    · rintro rfl
      exact ⟨fun e he => absurd he (Finset.not_mem_empty e), fun u => u.elim0, rfl⟩
  unfold mstSum
  rw [h1, Finset.image_singleton, Finset.coe_singleton, csInf_singleton]
  exact Finset.sum_empty

theorem spanTrees_two : spanTrees 2 = {{s((0 : Fin 2), (1 : Fin 2))}} := by
  have hclass : ∀ e : Sym2 (Fin 2), ¬ e.IsDiag → e = s((0 : Fin 2), (1 : Fin 2)) := by
    decide
  apply Finset.ext
  intro s
  rw [mem_spanTrees, Finset.mem_singleton]
  constructor
  · rintro ⟨hl, _, hc⟩
    obtain ⟨e, rfl⟩ := Finset.card_eq_one.mp hc
    rw [hclass e (hl e (Finset.mem_singleton_self e))]
  · rintro rfl
    refine ⟨?_, ?_, rfl⟩
    · intro e he
      rw [Finset.mem_singleton] at he
      subst he
      rw [Sym2.mk_isDiag_iff]
      decide
    · have hadj : (SimpleGraph.fromEdgeSet
          (↑({s((0 : Fin 2), (1 : Fin 2))} : Finset (Sym2 (Fin 2)))
            : Set (Sym2 (Fin 2)))).Adj 0 1 := by
        rw [SimpleGraph.fromEdgeSet_adj]
        exact ⟨by simp, by decide⟩
      intro a b
      fin_cases a <;> fin_cases b
      · exact SimpleGraph.Reachable.refl _
      · exact hadj.reachable
      · exact hadj.reachable.symm
      · exact SimpleGraph.Reachable.refl _

theorem mstSum_two (w : Sym2 (Fin 2) → ℝ) :
    mstSum 2 w = w s((0 : Fin 2), (1 : Fin 2)) := by
  unfold mstSum
  rw [spanTrees_two, Finset.image_singleton, Finset.coe_singleton, csInf_singleton]
  unfold treeWeight
  exact Finset.sum_singleton _ _

theorem compute_persistent_score_two {D : Nat} (y : Fin 2 → Point D) :
    compute_persistent_score 2 D y = eDist (y 0) (y 1) := by
  unfold compute_persistent_score
  rw [mstSum_two]
  rfl

theorem eDist_oneD (a b : ℝ) :
    eDist (fun _ : Fin 1 => a) (fun _ : Fin 1 => b) = |a - b| := by
  unfold eDist
  rw [Fin.sum_univ_one, Real.sqrt_sq_eq_abs]

theorem npMedian_singleton (a : ℝ) : npMedian [a] = a := by
  simp [npMedian, List.insertionSort, List.orderedInsert]

/-- C9 as stated is false: `compute_persistent_score` performs no input
validation; on an empty point set (`M = 0` rows) it returns the score value
`0` (the minimum spanning tree of the empty graph is empty and its edge-sum
is `0`), rather than raising an error. -/
theorem c9_counterexample :
    compute_persistent_score 0 1 (fun i => i.elim0) = 0 :=
  mstSum_zero _

/-- C9 amended: for an empty point set, `compute_persistent_score` returns
the score `0` — the same empty-tree convention as `M = 1` — and raises no
error; the function contains no validation of any kind. -/
theorem c9_empty_returns_zero (D : Nat) (x : Fin 0 → Point D) :
    compute_persistent_score 0 D x = 0 :=
  mstSum_zero _

/-- C7 as stated is false: `sample_and_score` exposes no seed or generator
parameter (nor does `estimate_sequence_dimension` expose `rng_seed`); it
draws from the shared global numpy RNG state.  Calling it twice in
succession — same embeddings (three 1-D points `0, 1, 10`), same parameters
`k = 1, hat_n = 2, J = 1`, the second call starting from the global state
the first call left behind, which is the only way repeated calls execute
against a shared global generator — returns different scores (`[10]`, then
`[9]`: the first call samples rows `{0, 2}`, the second rows `{1, 2}`). -/
theorem c7_counterexample :
    (sample_and_score 1 3
        (fun i _ => if i = 0 then (0 : ℝ) else if i = 1 then 1 else 10)
        1 2 1 1).1 = .ok ([2], [(10 : ℝ)]) ∧
    (sample_and_score 1 3
        (fun i _ => if i = 0 then (0 : ℝ) else if i = 1 then 1 else 10)
        1 2 1
        ((sample_and_score 1 3
          (fun i _ => if i = 0 then (0 : ℝ) else if i = 1 then 1 else 10)
          1 2 1 1).2)).1 = .ok ([2], [(9 : ℝ)]) ∧
    (10 : ℝ) ≠ 9 := by
  have h1 : sample_and_score 1 3
      (fun i _ => if i = 0 then (0 : ℝ) else if i = 1 then 1 else 10) 1 2 1 1
      = (.ok ([2], [npMedian [subScore
          (fun i _ => if i = 0 then (0 : ℝ) else if i = 1 then 1 else 10)
          ([0, 2] : List (Fin 3))]]), 2524885223) := rfl
  have h2 : sample_and_score 1 3
      (fun i _ => if i = 0 then (0 : ℝ) else if i = 1 then 1 else 10) 1 2 1
      2524885223
      = (.ok ([2], [npMedian [subScore
          (fun i _ => if i = 0 then (0 : ℝ) else if i = 1 then 1 else 10)
          ([1, 2] : List (Fin 3))]]), 3295386429) := rfl
  have hs1 : subScore
      ((fun i _ => if i = 0 then (0 : ℝ) else if i = 1 then 1 else 10) :
        Fin 3 → Point 1)
      ([0, 2] : List (Fin 3)) = 10 := by
    show compute_persistent_score 2 1 _ = 10
    rw [compute_persistent_score_two]
    show eDist (fun _ : Fin 1 => (0 : ℝ)) (fun _ : Fin 1 => (10 : ℝ)) = 10
    rw [eDist_oneD]
    norm_num
  have hs2 : subScore
      ((fun i _ => if i = 0 then (0 : ℝ) else if i = 1 then 1 else 10) :
        Fin 3 → Point 1)
      ([1, 2] : List (Fin 3)) = 9 := by
    show compute_persistent_score 2 1 _ = 9
    rw [compute_persistent_score_two]
    show eDist (fun _ : Fin 1 => (1 : ℝ)) (fun _ : Fin 1 => (10 : ℝ)) = 9
    rw [eDist_oneD]
    norm_num
  refine ⟨?_, ?_, by norm_num⟩
  · rw [h1, hs1, npMedian_singleton]
  · rw [h1, h2, hs2, npMedian_singleton]

/-- C7 amended: the Subsampler has no injectable seed; it is a deterministic
function of the explicit global RNG state it consumes.  The returned size
list does not depend on the RNG state at all (any two successful calls agree
on `sizes`), and two calls made from equal global states with equal inputs
return identical sizes, scores, and final states. -/
theorem c7_state_determinism (D N : Nat) (x : Fin N → Point D)
    (k hat_n J : Int) (g g' : Nat) :
    (∀ (p p' : List Int × List ℝ) (h h' : Nat),
      sample_and_score D N x k hat_n J g = (.ok p, h) →
      sample_and_score D N x k hat_n J g' = (.ok p', h') →
      p.1 = p'.1) ∧
    (g = g' →
      sample_and_score D N x k hat_n J g = sample_and_score D N x k hat_n J g') := by
  refine ⟨?_, fun h => h ▸ rfl⟩
  intro p p' h h' e e'
  rw [sample_and_score_ok_sizes e, sample_and_score_ok_sizes e']

theorem c7_state_determinism_witness :
    (0 : Nat) = 0 ∧
    sample_and_score 1 3 (fun _ _ => 0) 1 2 1 0
      = sample_and_score 1 3 (fun _ _ => 0) 1 2 1 0 :=
  ⟨rfl, (c7_state_determinism 1 3 (fun _ _ => 0) 1 2 1 0 0).2 rfl⟩

/-! The regression path of `estimate_dimension`. -/

theorem npLog_pos {x : ℝ} (h : 0 < x) : npLog x = .fin (Real.log x) := by
  unfold npLog
  rw [if_pos h]

theorem npLog_not_isFin {x : ℝ} (h : x ≤ 0) : (npLog x).isFin = false := by
  unfold npLog
  rw [if_neg (not_lt.mpr h)]
  by_cases h0 : x = 0
  · rw [if_pos h0]
    rfl
  · rw [if_neg h0]
    rfl

theorem olsSlope_self {a b : ℝ} (hab : a ≠ b) : olsSlope [a, b] [a, b] = 1 := by
  unfold olsSlope
  simp only [List.length_cons, List.length_nil, List.sum_cons, List.sum_nil,
    List.zip_cons_cons, List.zip_nil_right, List.map_cons, List.map_nil]
  have hden : (a - (a + (b + 0)) / (1 + (1 + 0) : Nat)) ^ 2
      + ((b - (a + (b + 0)) / (1 + (1 + 0) : Nat)) ^ 2 + 0) ≠ 0 := by
    push_cast
    intro h
    apply hab
    nlinarith [sq_nonneg (a - (a + b) / 2), sq_nonneg (b - (a + b) / 2)]
  rw [show ((a - (a + (b + 0)) / (1 + (1 + 0) : Nat))
        * (a - (a + (b + 0)) / (1 + (1 + 0) : Nat))
      + ((b - (a + (b + 0)) / (1 + (1 + 0) : Nat))
        * (b - (a + (b + 0)) / (1 + (1 + 0) : Nat)) + 0))
      = ((a - (a + (b + 0)) / (1 + (1 + 0) : Nat)) ^ 2
      + ((b - (a + (b + 0)) / (1 + (1 + 0) : Nat)) ^ 2 + 0)) from by ring]
  exact div_self hden

/-- For positive inputs the fit validates and `estimate_dimension` returns
`1 / (1 - slope)` unconditionally — there is no guard anywhere on the value
of the slope. -/
theorem estimate_dimension_pos {sizes scores : List ℝ} (hne : sizes ≠ [])
    (hpos : ∀ s ∈ sizes, 0 < s) (hpos' : ∀ s ∈ scores, 0 < s) :
    estimate_dimension sizes scores
      = .ok (1 / (1 - olsSlope (sizes.map Real.log) (scores.map Real.log))) := by
  have hval : ∀ (l : List ℝ), (∀ s ∈ l, 0 < s) →
      (l.map npLog).map FVal.val = l.map Real.log := by
    intro l hl
    rw [List.map_map]
    refine List.map_congr_left fun s hs => ?_
    rw [Function.comp_apply, npLog_pos (hl s hs)]
    rfl
  have hfin : ∀ (l : List ℝ), (∀ s ∈ l, 0 < s) →
      (l.map npLog).all FVal.isFin = true := by
    intro l hl
    rw [List.all_eq_true]
    intro v hv
    rw [List.mem_map] at hv
    obtain ⟨s, hs, rfl⟩ := hv
    rw [npLog_pos (hl s hs)]
    rfl
  have hfit : fitSlope (sizes.map npLog) (scores.map npLog)
      = .ok (olsSlope (sizes.map Real.log) (scores.map Real.log)) := by
    unfold fitSlope
    rw [if_neg]
    · rw [hval sizes hpos, hval scores hpos']
    · push_neg
      refine ⟨?_, ?_, ?_⟩
      · rw [List.length_map]
        exact fun h => hne (List.length_eq_zero.mp h)
      · rw [hfin sizes hpos]
      · rw [hfin scores hpos']
  unfold estimate_dimension
  rw [hfit]

/-- C5 as stated is false: on the synthetic input `sizes = scores = [1, 2]`
(score = size exactly) the fitted slope is exactly `1`, yet
`estimate_dimension` raises nothing — it returns the value of the transform
`1 / (1 - slope)` at `slope = 1`, an IEEE division by zero producing `inf`
(a junk value in the `ℝ` idealisation), not an error. -/
theorem c5_counterexample :
    olsSlope (List.map Real.log [1, 2]) (List.map Real.log [1, 2]) = 1 ∧
    estimate_dimension [1, 2] [1, 2] = .ok (1 / (1 - (1 : ℝ))) := by
  have hlog : List.map Real.log [(1 : ℝ), 2] = [0, Real.log 2] := by
    simp [Real.log_one]
  have hslope : olsSlope (List.map Real.log [(1 : ℝ), 2])
      (List.map Real.log [(1 : ℝ), 2]) = 1 := by
    rw [hlog]
    exact olsSlope_self (ne_of_lt (Real.log_pos one_lt_two))
  have hpos : ∀ s ∈ [(1 : ℝ), 2], 0 < s := by
    intro s hs
    rcases List.mem_cons.mp hs with rfl | hs
    · norm_num
    · rcases List.mem_singleton.mp hs with rfl
      norm_num
  refine ⟨hslope, ?_⟩
  rw [estimate_dimension_pos (by simp) hpos hpos, hslope]

/-- C5 amended: `estimate_dimension` contains no slope guard.  For any
positive `sizes`/`scores` it returns `1 / (1 - slope)` unconditionally; when
the fitted slope equals `1` this is a division by zero evaluated in float
arithmetic (numpy returns `inf` with a `RuntimeWarning`), it is not raised
as an error. -/
theorem c5_no_slope_guard (sizes scores : List ℝ) (hne : sizes ≠ [])
    (hpos : ∀ s ∈ sizes, 0 < s) (hpos' : ∀ s ∈ scores, 0 < s) :
    estimate_dimension sizes scores
      = .ok (1 / (1 - olsSlope (sizes.map Real.log) (scores.map Real.log))) :=
  estimate_dimension_pos hne hpos hpos'

theorem c5_no_slope_guard_witness :
    (([(1 : ℝ), 2] : List ℝ) ≠ [] ∧ (∀ s ∈ [(1 : ℝ), 2], 0 < s) ∧
      (∀ s ∈ [(2 : ℝ), 3], 0 < s)) ∧
    estimate_dimension [1, 2] [2, 3]
      = .ok (1 / (1 - olsSlope (List.map Real.log [1, 2])
          (List.map Real.log [2, 3]))) := by
  have h1 : ([(1 : ℝ), 2] : List ℝ) ≠ [] := by simp
  have h2 : ∀ s ∈ [(1 : ℝ), 2], 0 < s := by
    intro s hs
    rcases List.mem_cons.mp hs with rfl | hs
    · norm_num
    · rcases List.mem_singleton.mp hs with rfl
      norm_num
  have h3 : ∀ s ∈ [(2 : ℝ), 3], 0 < s := by
    intro s hs
    rcases List.mem_cons.mp hs with rfl | hs
    · norm_num
    · rcases List.mem_singleton.mp hs with rfl
      norm_num
  exact ⟨⟨h1, h2, h3⟩, c5_no_slope_guard [1, 2] [2, 3] h1 h2 h3⟩

/-- C6: whenever any score is zero or negative, the Dimension Estimator
surfaces the condition as an error: `np.log` of the nonpositive score is
non-finite (`-inf` or `nan`), and `sklearn`'s input validation inside
`LinearRegression().fit` rejects non-finite inputs with a `ValueError`, so
`estimate_dimension` raises rather than continuing to a fitted value. -/
theorem c6_nonpositive_score_errors (sizes scores : List ℝ)
    (h : ∃ s ∈ scores, s ≤ 0) :
    estimate_dimension sizes scores = .error .fitNonFinite := by
  obtain ⟨s, hs, hle⟩ := h
  have hall : (scores.map npLog).all FVal.isFin = false := by
    rw [List.all_eq_false]
    refine ⟨npLog s, List.mem_map_of_mem _ hs, ?_⟩
    rw [npLog_not_isFin hle]
    exact Bool.false_ne_true
  have hfit : fitSlope (sizes.map npLog) (scores.map npLog)
      = .error .fitNonFinite := by
    unfold fitSlope
    rw [if_pos]
    right
    right
    rw [hall]
    exact Bool.false_ne_true
  unfold estimate_dimension
  rw [hfit]

theorem c6_nonpositive_score_errors_witness :
    (∃ s ∈ [(0 : ℝ)], s ≤ 0) ∧
    estimate_dimension [1] [0] = .error .fitNonFinite :=
  ⟨⟨0, List.mem_singleton_self 0, le_refl 0⟩,
    c6_nonpositive_score_errors [1] [0]
      ⟨0, List.mem_singleton_self 0, le_refl 0⟩⟩

/-! The multi-run aggregator refines the spec's description. -/

set_option maxHeartbeats 1000000 in
theorem aggLoop_eq_collect (D N : Nat) (x : Fin N → Point D) :
    ∀ (r g : Nat) (acc : List ℝ),
      aggLoop D N x r g acc
        = ((collectSlopesSpec D N x r g).1.map fun l => acc ++ l,
            (collectSlopesSpec D N x r g).2) := by
  intro r
  induction r with
  | zero =>
    intro g acc
    unfold aggLoop collectSlopesSpec
    simp [Except.map]
  | succ r ih =>
    intro g acc
    unfold aggLoop collectSlopesSpec
    rcases hrs : runSlope D N x g with ⟨res, g1⟩
    cases res with
    | error e => rfl
    | ok s =>
      rcases hc : collectSlopesSpec D N x r g1 with ⟨r2, g2⟩
      simp only [ih g1 (acc ++ [s]), hc]
      cases r2 with
      | error e => rfl
      | ok rest => simp [Except.map]

/-- C2: the Multi-run Aggregator takes the loaded embedding matrix once and,
for each of the `R` runs, calls the Subsampler (with the source defaults
`k = 8, hat_n = 40, J = 7`) for a fresh `sizes`/`scores` pair and fits the
log-log regression for a slope; it collects the `R` slopes, averages them,
and applies `1 / (1 - mean_slope)` exactly once at the end — it coincides
with the spec-side description `estimate_sequence_dimension_spec`
(slope-space averaging, single final transform), not with per-run
transformation and dimension averaging. -/
theorem c2_aggregator_refines_spec (D N : Nat) (x : Fin N → Point D)
    (runs : Nat) (g : Nat) :
    estimate_sequence_dimension D N x runs g
      = estimate_sequence_dimension_spec D N x runs g := by
  unfold estimate_sequence_dimension estimate_sequence_dimension_spec
  rw [aggLoop_eq_collect]
  rcases collectSlopesSpec D N x runs g with ⟨r, g'⟩
  cases r with
  | error e => rfl
  | ok slopes => simp [Except.map]

end IntrinsicDim
